import Mathlib

/-!
Verification of the bip39 encoder package: a shallow embedding of
`encoder.go` and `bip39.go` (entropy/mnemonic marshalling, checksum
handling, seed derivation and entropy generation), together with proofs
of the specified properties.

Byte slices are modelled as `List Nat` (each entry a byte value), Go
strings as `List Char`, and `big.Int` values as `Nat`.  The external
collaborators — the first byte of the SHA-256 digest, the PBKDF2 key
derivation function, and the secure random source — are abstract
parameters, exactly as the spec treats them (external capabilities).
-/

set_option maxHeartbeats 1000000

namespace BIP39

/-- Error values of the package: `ErrEntropyLengthInvalid`,
`ErrMnemonicLengthInvalid`, `ErrMnemonicWordInvalid`,
`ErrChecksumIncorrect` plus the random-source failure of `NewEntropy`.
They are distinct package-level error values. -/
inductive Err where
  | EntropyLengthInvalid
  | MnemonicLengthInvalid
  | MnemonicWordInvalid
  | ChecksumIncorrect
  | RandomSourceFailure
deriving DecidableEq

/-- Big-endian value of a byte slice, as computed by `big.Int.SetBytes`. -/
def bytesToNat (bs : List Nat) : Nat := bs.foldl (fun acc b => acc * 256 + b) 0

/-- Fuel-driven helper for `natToBytes` (structural, so it computes in the
kernel). -/
def natToBytesAux : Nat → Nat → List Nat
  | 0, _ => []
  | _ + 1, 0 => []
  | fuel + 1, n + 1 => natToBytesAux fuel ((n + 1) / 256) ++ [(n + 1) % 256]

/-- Minimal big-endian byte representation of a natural number, as computed
by `big.Int.Bytes` (the empty slice for zero). -/
def natToBytes (n : Nat) : List Nat := natToBytesAux n n

/-- Embedding of `padByteSlice`: left pad with zero bytes up to the wanted
length, returning the slice unchanged when it is already long enough. -/
def padByteSlice (slice : List Nat) (len : Nat) : List Nat :=
  if len ≤ slice.length then slice
  else List.replicate (len - slice.length) 0 ++ slice

/-- Embedding of `compareByteSlices`: length check followed by an
element-wise comparison. -/
def compareByteSlices (a b : List Nat) : Bool :=
  if a.length ≠ b.length then false
  else (List.zip a b).all fun p => p.1 == p.2

/-- Embedding of `binary.BigEndian.Uint16`: the big-endian value of the
first two bytes of a slice. -/
def beUint16 (bs : List Nat) : Nat := bs.getD 0 0 * 256 + bs.getD 1 0

/-- The bit-interleaving loop of `addChecksum`: starting from the entropy
value, shift left one bit at a time and OR in the checksum bits taken from
the hash byte `fb`, most significant first. -/
def checksumShift (fb : Nat) (checksumBitLength : Nat) (x : Nat) : Nat :=
  (List.range checksumBitLength).foldl
    (fun acc i => if fb / 2 ^ (7 - i) % 2 = 1 then 2 * acc + 1 else 2 * acc) x

/-- Embedding of `addChecksum`, parametrised by the first byte of the
SHA-256 digest (`h`, an external cryptographic capability): append the
first `len(data)/4` bits of the hash byte to the entropy value and return
its minimal big-endian bytes. -/
def addChecksum (h : List Nat → Fin 256) (data : List Nat) : List Nat :=
  natToBytes (checksumShift (h data).val (data.length / 4) (bytesToNat data))

/-- Embedding of `validateEntropyBitSize` from `bip39.go`. -/
def validateEntropyBitSize (bitSize : Nat) : Option Err :=
  if bitSize % 32 ≠ 0 ∨ bitSize < 128 ∨ bitSize > 256 then
    some Err.EntropyLengthInvalid
  else none

-- Whitespace and word splitting (`strings.Fields`)

/-- Go `unicode.IsSpace`: the Unicode white-space code points. -/
def goIsSpace (c : Char) : Bool :=
  c.toNat = 0x9 || c.toNat = 0xA || c.toNat = 0xB || c.toNat = 0xC ||
  c.toNat = 0xD || c.toNat = 0x20 || c.toNat = 0x85 || c.toNat = 0xA0 ||
  c.toNat = 0x1680 || (0x2000 ≤ c.toNat && c.toNat ≤ 0x200A) ||
  c.toNat = 0x2028 || c.toNat = 0x2029 || c.toNat = 0x202F ||
  c.toNat = 0x205F || c.toNat = 0x3000

/-- Accumulating splitter behind `fields`; `cur` holds the reversed
characters of the word currently being read. -/
def fieldsAux : List Char → List Char → List (List Char)
  | [], cur => if cur.isEmpty then [] else [cur.reverse]
  | c :: cs, cur =>
    if goIsSpace c then
      if cur.isEmpty then fieldsAux cs [] else cur.reverse :: fieldsAux cs []
    else fieldsAux cs (c :: cur)

/-- Embedding of `strings.Fields`: split around runs of white space,
dropping empty fields. -/
def fields (s : List Char) : List (List Char) := fieldsAux s []

/-- Embedding of `strings.Join(words, " ")`. -/
def joinWords : List (List Char) → List Char
  | [] => []
  | [w] => w
  | w :: ws => w ++ ' ' :: joinWords ws

/-- A word in the sense of a wordlist entry: a non-empty string containing
no white-space character. -/
def okWord (w : List Char) : Bool := !w.isEmpty && w.all fun c => !goIsSpace c

-- Wordlist map (Go builds `wordMap` by ranging over the list, so a
-- duplicated word keeps its last index)

/-- Helper for `wordMapFind`, carrying the index of the head of the
remaining list; later entries win, as in the Go map-building loop. -/
def wordMapFindAux : List (List Char) → List Char → Nat → Option Nat
  | [], _, _ => none
  | x :: xs, w, i =>
    match wordMapFindAux xs w (i + 1) with
    | some j => some j
    | none => if x = w then some i else none

/-- The inverse mapping `wordMap` built by `NewEncoder`: index of the last
occurrence of a word in the wordlist. -/
def wordMapFind (wl : List (List Char)) (w : List Char) : Option Nat :=
  wordMapFindAux wl w 0

/-- Embedding of the `Encoder` struct. -/
structure Encoder where
  wordList : List (List Char)
  wordMap : List Char → Option Nat

/-- Embedding of `NewEncoder`: store the wordlist and build the inverse
mapping; no validation of any kind is performed. -/
def NewEncoder (wordList : List (List Char)) : Encoder :=
  { wordList := wordList, wordMap := wordMapFind wordList }

-- MarshalEntropy

/-- One word index, as computed in the marshalling loop:
`binary.BigEndian.Uint16(padByteSlice(word.Bytes(), 2))` of the masked
11-bit value. -/
def wordIndex (w : Nat) : Nat := beUint16 (padByteSlice (natToBytes w) 2)

/-- The word indices extracted by the marshalling loop, in extraction
order (least-significant 11-bit group first; the Go loop stores them from
the last slot backwards, i.e. this list reversed). -/
def marshalIndicesRev : Nat → Nat → List Nat
  | _, 0 => []
  | x, k + 1 => wordIndex (x % 2048) :: marshalIndicesRev (x / 2048) k

/-- Slice indexing of the wordlist for each extracted index, `none`
modelling the out-of-bounds panic of `e.wordList[idx]`. -/
def lookupWords (wl : List (List Char)) : List Nat → Option (List (List Char))
  | [] => some []
  | d :: ds =>
    match wl.get? d with
    | none => none
    | some w =>
      match lookupWords wl ds with
      | none => none
      | some ws => some (w :: ws)

/-- Embedding of `Encoder.MarshalEntropy`.  The outer `Option` models the
runtime panic of an out-of-bounds wordlist lookup (`none`); the `Except`
models the `(string, error)` return. -/
def MarshalEntropy (h : List Nat → Fin 256) (e : Encoder) (entropy : List Nat) :
    Option (Except Err (List Char)) :=
  let entropyBitLength := entropy.length * 8
  let checksumBitLength := entropyBitLength / 32
  let sentenceLength := (entropyBitLength + checksumBitLength) / 11
  match validateEntropyBitSize entropyBitLength with
  | some err => some (Except.error err)
  | none =>
    let withChecksum := addChecksum h entropy
    let entropyInt := bytesToNat withChecksum
    match lookupWords e.wordList (marshalIndicesRev entropyInt sentenceLength) with
    | none => none
    | some ws => some (Except.ok (joinWords ws.reverse))

-- UnmarshalEntropy

/-- The index-accumulation loop of `UnmarshalEntropy`: look up each word
and fold `acc * 2048 + index`, failing at the first unknown word. -/
def wordsToInt (e : Encoder) : List (List Char) → Nat → Except Err Nat
  | [], acc => Except.ok acc
  | w :: ws, acc =>
    match e.wordMap w with
    | none => Except.error Err.MnemonicWordInvalid
    | some idx => wordsToInt e ws (acc * 2048 + idx)

/-- Body of `Encoder.UnmarshalEntropy` after the `strings.Fields` split. -/
def unmarshalWords (h : List Nat → Fin 256) (e : Encoder)
    (mnemonicSlice : List (List Char)) : Except Err (List Nat) :=
  let wordCount := mnemonicSlice.length
  let entropyBitSize := wordCount * 11
  let checksumBitSize := entropyBitSize % 32
  let fullByteSize := (entropyBitSize - checksumBitSize) / 8 + 1
  let checksumByteSize := fullByteSize - fullByteSize % 4
  if wordCount % 3 ≠ 0 ∨ wordCount < 12 ∨ wordCount > 24 then
    Except.error Err.MnemonicLengthInvalid
  else
    match wordsToInt e mnemonicSlice 0 with
    | Except.error err => Except.error err
    | Except.ok checksummedEntropy =>
      let checksumModulo := 2 ^ checksumBitSize
      let rawEntropy := checksummedEntropy / checksumModulo
      let rawEntropyBytes := padByteSlice (natToBytes rawEntropy) checksumByteSize
      let checksummedEntropyBytes :=
        padByteSlice (natToBytes checksummedEntropy) fullByteSize
      let newChecksummedEntropyBytes :=
        padByteSlice (addChecksum h rawEntropyBytes) fullByteSize
      if compareByteSlices checksummedEntropyBytes newChecksummedEntropyBytes
      then Except.ok checksummedEntropyBytes
      else Except.error Err.ChecksumIncorrect

/-- Embedding of `Encoder.UnmarshalEntropy`: split the mnemonic on white
space and process the resulting words. -/
def UnmarshalEntropy (h : List Nat → Fin 256) (e : Encoder)
    (mnemonic : List Char) : Except Err (List Nat) :=
  unmarshalWords h e (fields mnemonic)

-- Seed derivation

/-- Embedding of `createSeedHash`, parametrised by the PBKDF2-HMAC-SHA512
capability `kdf` (password, salt, iteration count, key length): the
password is the mnemonic exactly as supplied, the salt is
"mnemonic" + password argument, 2048 iterations, 64 output bytes. -/
def createSeedHash (kdf : List Char → List Char → Nat → Nat → List Nat)
    (mnemonic password : List Char) : List Nat :=
  kdf mnemonic (['m', 'n', 'e', 'm', 'o', 'n', 'i', 'c'] ++ password) 2048 64

/-- Embedding of `Encoder.NewSeed`: validate via `UnmarshalEntropy`, then
hash the original mnemonic string. -/
def NewSeed (kdf : List Char → List Char → Nat → Nat → List Nat)
    (h : List Nat → Fin 256) (e : Encoder) (mnemonic password : List Char) :
    Except Err (List Nat) :=
  match UnmarshalEntropy h e mnemonic with
  | Except.error err => Except.error err
  | Except.ok _ => Except.ok (createSeedHash kdf mnemonic password)

-- Entropy generation

/-- Embedding of `NewEntropy` from `bip39.go`, parametrised by the secure
random source `src`: `src n` is the content of the `n`-byte buffer after
`rand.Read` together with the error it returned.  Go returns the buffer
alongside the error (`return entropy, err`). -/
def NewEntropy (src : Nat → List Nat × Option Err) (bitSize : Nat) :
    List Nat × Option Err :=
  match validateEntropyBitSize bitSize with
  | some err => ([], some err)
  | none => src (bitSize / 8)

-- Auxiliary notions for stating the properties

/-- A mnemonic rendered as word/separator pieces: each pair is a word
followed by the white space after it. -/
def renderPieces : List (List Char × List Char) → List Char
  | [] => []
  | (w, s) :: rest => w ++ s ++ renderPieces rest

/-- Well-formedness of the pieces: every word is a real word, every
separator is white space, and every separator except the last is
non-empty (so adjacent words do not merge). -/
def okPieces : List (List Char × List Char) → Bool
  | [] => true
  | [(w, s)] => okWord w && s.all goIsSpace
  | (w, s) :: rest => okWord w && s.all goIsSpace && !s.isEmpty && okPieces rest

/-- First word of a word sequence that is absent from a wordlist's
inverse mapping, if any. -/
def firstUnknownWord (wl : List (List Char)) (ws : List (List Char)) :
    Option (List Char) :=
  ws.find? fun w => (wordMapFind wl w).isNone

-- Concrete instances used to exercise the theorems

/-- A concrete hash capability: every digest has first byte zero. -/
def hZero : List Nat → Fin 256 := fun _ => 0

/-- Sixteen zero bytes: 128 bits of all-zero entropy. -/
def eZero16 : List Nat := List.replicate 16 0

/-- A wordlist of 2048 distinct words (distinct runs of the letter a). -/
def wlBig : List (List Char) := (List.range 2048).map fun i => List.replicate (i + 1) 'a'

/-- A one-word wordlist. -/
def wlA : List (List Char) := [['a']]

/-- Twelve copies of the word a, joined by single spaces. -/
def mnA12 : List Char := joinWords (List.replicate 12 ['a'])

/-- Eleven copies of a followed by the unknown word b. -/
def mnUnknownB : List Char := joinWords (List.replicate 11 ['a'] ++ [['b']])

/-- Eleven copies of a followed by the unknown word c. -/
def mnUnknownC : List Char := joinWords (List.replicate 11 ['a'] ++ [['c']])

/-- A concrete key-derivation capability recording its arguments. -/
def kdfLen : List Char → List Char → Nat → Nat → List Nat :=
  fun password salt iter klen => [password.length, salt.length, iter, klen]

/-- A random source that always fails, leaving the buffer zeroed. -/
def failSrc : Nat → List Nat × Option Err :=
  fun n => (List.replicate n 0, some Err.RandomSourceFailure)

-- Byte-arithmetic lemmas

theorem bytesToNat_foldl (bs : List Nat) (a : Nat) :
    bs.foldl (fun acc b => acc * 256 + b) a = a * 256 ^ bs.length + bytesToNat bs := by
  induction bs generalizing a with
  | nil => simp [bytesToNat]
  | cons b bs ih =>
    simp only [List.foldl_cons, bytesToNat, List.length_cons]
    rw [ih (a * 256 + b), ih (0 * 256 + b)]
    ring

theorem bytesToNat_cons (b : Nat) (bs : List Nat) :
    bytesToNat (b :: bs) = b * 256 ^ bs.length + bytesToNat bs := by
  have h := bytesToNat_foldl bs b
  simp only [bytesToNat, List.foldl_cons, List.length_cons]
  simpa using h

theorem bytesToNat_append (xs ys : List Nat) :
    bytesToNat (xs ++ ys) = bytesToNat xs * 256 ^ ys.length + bytesToNat ys := by
  simp only [bytesToNat, List.foldl_append]
  exact bytesToNat_foldl ys _

theorem bytesToNat_lt (bs : List Nat) (h : ∀ b ∈ bs, b < 256) :
    bytesToNat bs < 256 ^ bs.length := by
  induction bs with
  | nil => simp [bytesToNat]
  | cons b bs ih =>
    rw [bytesToNat_cons]
    have hb : b < 256 := h b (List.mem_cons_self _ _)
    have hr : bytesToNat bs < 256 ^ bs.length :=
      ih fun x hx => h x (List.mem_cons_of_mem _ hx)
    calc b * 256 ^ bs.length + bytesToNat bs
        < b * 256 ^ bs.length + 256 ^ bs.length := by omega
      _ = (b + 1) * 256 ^ bs.length := by ring
      _ ≤ 256 * 256 ^ bs.length := by
          exact Nat.mul_le_mul_right _ (by omega)
      _ = 256 ^ (bs.length + 1) := by ring
      _ = 256 ^ (b :: bs).length := by simp

theorem bytesToNat_replicate_zero (k : Nat) (bs : List Nat) :
    bytesToNat (List.replicate k 0 ++ bs) = bytesToNat bs := by
  rw [bytesToNat_append]
  have : bytesToNat (List.replicate k 0) = 0 := by
    induction k with
    | zero => rfl
    | succ k ih =>
      rw [List.replicate_succ, bytesToNat_cons, ih]
      omega
  simp [this]

theorem natToBytesAux_congr (f : Nat) :
    ∀ g n, n ≤ f → n ≤ g → natToBytesAux f n = natToBytesAux g n := by
  induction f with
  | zero =>
    intro g n hf _
    obtain rfl : n = 0 := Nat.le_zero.mp hf
    cases g <;> rfl
  | succ f ih =>
    intro g n hf hg
    cases n with
    | zero => cases g <;> rfl
    | succ m =>
      cases g with
      | zero => omega
      | succ g =>
        have hdiv : (m + 1) / 256 < m + 1 :=
          Nat.div_lt_self (Nat.succ_pos m) (by norm_num)
        simp only [natToBytesAux]
        rw [ih g ((m + 1) / 256) (by omega) (by omega)]

theorem natToBytes_zero : natToBytes 0 = [] := rfl

theorem natToBytes_succ (n : Nat) (hn : n ≠ 0) :
    natToBytes n = natToBytes (n / 256) ++ [n % 256] := by
  obtain ⟨m, rfl⟩ : ∃ m, n = m + 1 := ⟨n - 1, by omega⟩
  have hdiv : (m + 1) / 256 < m + 1 :=
    Nat.div_lt_self (Nat.succ_pos m) (by norm_num)
  simp only [natToBytes, natToBytesAux]
  congr 1
  exact natToBytesAux_congr m _ ((m + 1) / 256) (by omega) le_rfl

theorem bytesToNat_natToBytes (n : Nat) : bytesToNat (natToBytes n) = n := by
  induction n using Nat.strong_induction_on with
  | _ n ih =>
    rcases eq_or_ne n 0 with rfl | hn
    · rfl
    · rw [natToBytes_succ n hn, bytesToNat_append,
        ih (n / 256) (Nat.div_lt_self (Nat.pos_of_ne_zero hn) (by norm_num))]
      have : bytesToNat [n % 256] = n % 256 := by simp [bytesToNat]
      rw [this]
      simp only [List.length_singleton, pow_one]
      omega

theorem natToBytes_mem_lt (n : Nat) : ∀ b ∈ natToBytes n, b < 256 := by
  induction n using Nat.strong_induction_on with
  | _ n ih =>
    intro b hb
    rcases eq_or_ne n 0 with rfl | hn
    · simp [natToBytes_zero] at hb
    · rw [natToBytes_succ n hn] at hb
      rcases List.mem_append.mp hb with h | h
      · exact ih (n / 256) (Nat.div_lt_self (Nat.pos_of_ne_zero hn) (by norm_num)) b h
      · simp at h
        omega

theorem natToBytes_length_le : ∀ n k, n < 256 ^ k → (natToBytes n).length ≤ k := by
  intro n
  induction n using Nat.strong_induction_on with
  | _ n ih =>
    intro k hk
    rcases eq_or_ne n 0 with rfl | hn
    · simp [natToBytes_zero]
    · rw [natToBytes_succ n hn]
      cases k with
      | zero => simp at hk; omega
      | succ k =>
        have h2 : n / 256 < 256 ^ k := by
          rw [Nat.div_lt_iff_lt_mul (by norm_num)]
          calc n < 256 ^ (k + 1) := hk
            _ = 256 ^ k * 256 := by ring
        have := ih (n / 256) (Nat.div_lt_self (Nat.pos_of_ne_zero hn) (by norm_num)) k h2
        simp only [List.length_append, List.length_singleton]
        omega

theorem padByteSlice_length (bs : List Nat) (k : Nat) :
    (padByteSlice bs k).length = max k bs.length := by
  unfold padByteSlice
  split
  · omega
  · simp only [List.length_append, List.length_replicate]
    omega

theorem bytesToNat_padByteSlice (bs : List Nat) (k : Nat) :
    bytesToNat (padByteSlice bs k) = bytesToNat bs := by
  unfold padByteSlice
  split
  · rfl
  · exact bytesToNat_replicate_zero _ _

theorem padByteSlice_mem (bs : List Nat) (k : Nat) :
    ∀ b ∈ padByteSlice bs k, b = 0 ∨ b ∈ bs := by
  unfold padByteSlice
  split
  · exact fun b hb => Or.inr hb
  · intro b hb
    rcases List.mem_append.mp hb with h | h
    · exact Or.inl (List.eq_of_mem_replicate h)
    · exact Or.inr h

theorem bytesToNat_inj : ∀ a b : List Nat, a.length = b.length →
    (∀ x ∈ a, x < 256) → (∀ x ∈ b, x < 256) →
    bytesToNat a = bytesToNat b → a = b := by
  intro a
  induction a with
  | nil =>
    intro b hlen _ _ _
    cases b with
    | nil => rfl
    | cons y ys => simp at hlen
  | cons x xs ih =>
    intro b hlen ha hb hv
    cases b with
    | nil => simp at hlen
    | cons y ys =>
      have hl : xs.length = ys.length := by simpa using hlen
      rw [bytesToNat_cons, bytesToNat_cons, hl] at hv
      have hxs : bytesToNat xs < 256 ^ ys.length := by
        rw [← hl]
        exact bytesToNat_lt xs fun z hz => ha z (List.mem_cons_of_mem _ hz)
      have hys : bytesToNat ys < 256 ^ ys.length :=
        bytesToNat_lt ys fun z hz => hb z (List.mem_cons_of_mem _ hz)
      have hM : 0 < 256 ^ ys.length := Nat.pos_pow_of_pos _ (by norm_num)
      have hx : x = y := by
        have e1 : (x * 256 ^ ys.length + bytesToNat xs) / 256 ^ ys.length = x := by
          rw [mul_comm x, Nat.mul_add_div hM, Nat.div_eq_of_lt hxs]
          omega
        have e2 : (y * 256 ^ ys.length + bytesToNat ys) / 256 ^ ys.length = y := by
          rw [mul_comm y, Nat.mul_add_div hM, Nat.div_eq_of_lt hys]
          omega
        rw [← e1, ← e2, hv]
      subst hx
      have hrest : bytesToNat xs = bytesToNat ys := by omega
      rw [ih ys hl (fun z hz => ha z (List.mem_cons_of_mem _ hz))
        (fun z hz => hb z (List.mem_cons_of_mem _ hz)) hrest]

theorem padByteSlice_natToBytes (e : List Nat) (he : ∀ b ∈ e, b < 256) :
    padByteSlice (natToBytes (bytesToNat e)) e.length = e := by
  have hlt : bytesToNat e < 256 ^ e.length := bytesToNat_lt e he
  have hlen : (natToBytes (bytesToNat e)).length ≤ e.length :=
    natToBytes_length_le _ _ hlt
  apply bytesToNat_inj
  · rw [padByteSlice_length]
    omega
  · intro x hx
    rcases padByteSlice_mem _ _ x hx with rfl | h
    · norm_num
    · exact natToBytes_mem_lt _ x h
  · exact he
  · rw [bytesToNat_padByteSlice, bytesToNat_natToBytes]

-- Word index and checksum-shift lemmas

theorem wordIndex_eq (w : Nat) (hw : w < 65536) : wordIndex w = w := by
  rcases eq_or_ne w 0 with rfl | h0
  · decide
  rcases Nat.lt_or_ge w 256 with h1 | h1
  · have hb : natToBytes w = [w] := by
      rw [natToBytes_succ w h0, Nat.div_eq_of_lt h1, natToBytes_zero,
        Nat.mod_eq_of_lt h1]
      rfl
    simp only [wordIndex, hb, padByteSlice, beUint16]
    norm_num [List.getD]
  · have hd0 : w / 256 ≠ 0 := by
      intro h
      have := Nat.div_eq_of_lt (show w < 256 from by omega)
      omega
    have hdlt : w / 256 < 256 := by omega
    have hb : natToBytes w = [w / 256, w % 256] := by
      rw [natToBytes_succ w h0, natToBytes_succ _ hd0,
        Nat.div_eq_of_lt hdlt, Nat.mod_eq_of_lt hdlt, natToBytes_zero]
      rfl
    simp only [wordIndex, hb, padByteSlice, beUint16]
    norm_num [List.getD]
    omega

theorem checksumShift_zero (fb x : Nat) : checksumShift fb 0 x = x := rfl

theorem checksumShift_succ (fb c x : Nat) :
    checksumShift fb (c + 1) x =
      if fb / 2 ^ (7 - c) % 2 = 1 then 2 * checksumShift fb c x + 1
      else 2 * checksumShift fb c x := by
  unfold checksumShift
  rw [List.range_succ, List.foldl_append]
  simp

theorem checksumShift_div (fb c x : Nat) : checksumShift fb c x / 2 ^ c = x := by
  induction c with
  | zero => simp [checksumShift_zero]
  | succ c ih =>
    have e : (2 : Nat) ^ (c + 1) = 2 * 2 ^ c := by ring
    rw [checksumShift_succ, e]
    split
    · rw [← Nat.div_div_eq_div_mul]
      have : (2 * checksumShift fb c x + 1) / 2 = checksumShift fb c x := by omega
      rw [this, ih]
    · rw [← Nat.div_div_eq_div_mul]
      have : 2 * checksumShift fb c x / 2 = checksumShift fb c x := by omega
      rw [this, ih]

theorem checksumShift_lt (fb c x M : Nat) (hx : x < M) :
    checksumShift fb c x < M * 2 ^ c := by
  induction c with
  | zero => simpa [checksumShift_zero]
  | succ c ih =>
    have e : M * 2 ^ (c + 1) = 2 * (M * 2 ^ c) := by ring
    rw [checksumShift_succ, e]
    split <;> omega

-- Extracted 11-bit digits

theorem marshalIndicesRev_succ (x k : Nat) :
    marshalIndicesRev x (k + 1) =
      wordIndex (x % 2048) :: marshalIndicesRev (x / 2048) k := rfl

theorem marshalIndicesRev_mem : ∀ k x, ∀ d ∈ marshalIndicesRev x k, d < 2048 := by
  intro k
  induction k with
  | zero => intro x d hd; simp [marshalIndicesRev] at hd
  | succ k ih =>
    intro x d hd
    rw [marshalIndicesRev_succ] at hd
    rcases List.mem_cons.mp hd with rfl | h
    · rw [wordIndex_eq _ (by omega)]
      omega
    · exact ih (x / 2048) d h

theorem foldl_marshalIndicesRev : ∀ k x acc,
    List.foldl (fun a d => a * 2048 + d) acc (marshalIndicesRev x k).reverse =
      acc * 2048 ^ k + x % 2048 ^ k := by
  intro k
  induction k with
  | zero => intro x acc; simp [marshalIndicesRev, Nat.mod_one]
  | succ k ih =>
    intro x acc
    rw [marshalIndicesRev_succ]
    simp only [List.reverse_cons, List.foldl_append, List.foldl_cons,
      List.foldl_nil]
    rw [ih (x / 2048) acc, wordIndex_eq _ (by omega)]
    have hm : x % 2048 ^ (k + 1) = x % 2048 + 2048 * (x / 2048 % 2048 ^ k) := by
      have h := Nat.mod_mul (a := 2048) (b := 2048 ^ k) (x := x)
      rw [← pow_succ'] at h
      exact h
    rw [hm]
    ring

-- Wordlist lookup lemmas

theorem lookupWords_eq (wl : List (List Char)) :
    ∀ ds : List Nat, (∀ d ∈ ds, d < wl.length) →
      lookupWords wl ds = some (ds.map fun d => wl.getD d []) := by
  intro ds
  induction ds with
  | nil => intro; rfl
  | cons d ds ih =>
    intro hds
    have hd : d < wl.length := hds d (List.mem_cons_self _ _)
    have hget : wl.get? d = some (wl.getD d []) := by
      rw [List.getD_eq_getElem?_getD, List.get?_eq_getElem?,
        List.getElem?_eq_getElem hd]
      rfl
    simp only [lookupWords, hget, ih fun x hx => hds x (List.mem_cons_of_mem _ hx),
      List.map_cons]

theorem wordMapFindAux_bound :
    ∀ (wl : List (List Char)) (w : List Char) (i j : Nat),
      wordMapFindAux wl w i = some j → i ≤ j ∧ j < i + wl.length := by
  intro wl
  induction wl with
  | nil => intro w i j h; simp [wordMapFindAux] at h
  | cons x xs ih =>
    intro w i j h
    simp only [wordMapFindAux] at h
    split at h
    · rename_i j2 heq
      have hj : j2 = j := Option.some.inj h
      have := ih w (i + 1) j2 heq
      simp only [List.length_cons]
      omega
    · rename_i heq
      split at h
      · have hij : i = j := Option.some.inj h
        simp only [List.length_cons]
        omega
      · exact Option.noConfusion h

theorem wordMapFindAux_none_iff :
    ∀ (wl : List (List Char)) (w : List Char) (i : Nat),
      wordMapFindAux wl w i = none ↔ w ∉ wl := by
  intro wl
  induction wl with
  | nil => intro w i; simp [wordMapFindAux]
  | cons x xs ih =>
    intro w i
    simp only [wordMapFindAux, List.mem_cons]
    cases haux : wordMapFindAux xs w (i + 1) with
    | some j =>
      have : w ∈ xs := by
        by_contra hmem
        rw [← ih w (i + 1)] at hmem
        rw [hmem] at haux
        exact Option.noConfusion haux
      simp [this]
    | none =>
      have hmem : w ∉ xs := (ih w (i + 1)).mp haux
      by_cases hx : x = w
      · simp [hx]
      · have : ¬ w = x := fun hc => hx hc.symm
        simp [hx, this, hmem]

theorem wordMapFindAux_get (wl : List (List Char)) (hnd : wl.Nodup) :
    ∀ (i j : Nat) (hj : j < wl.length) (w : List Char),
      wl.get ⟨j, hj⟩ = w → wordMapFindAux wl w i = some (i + j) := by
  induction wl with
  | nil => intro i j hj; simp at hj
  | cons x xs ih =>
    intro i j hj w hw
    have hnd' : x ∉ xs ∧ xs.Nodup := by
      rw [List.nodup_cons] at hnd
      exact hnd
    cases j with
    | zero =>
      have hxw : x = w := hw
      have hnotin : w ∉ xs := hxw ▸ hnd'.1
      have : wordMapFindAux xs w (i + 1) = none :=
        (wordMapFindAux_none_iff xs w (i + 1)).mpr hnotin
      simp [wordMapFindAux, this, hxw]
    | succ j' =>
      have hj' : j' < xs.length := by simpa using hj
      have hget : xs.get ⟨j', hj'⟩ = w := hw
      have := ih hnd'.2 (i + 1) j' hj' w hget
      simp only [wordMapFindAux, this]
      congr 1
      omega

theorem wordMapFind_get (wl : List (List Char)) (hnd : wl.Nodup)
    (j : Nat) (hj : j < wl.length) :
    wordMapFind wl (wl.get ⟨j, hj⟩) = some j := by
  have := wordMapFindAux_get wl hnd 0 j hj (wl.get ⟨j, hj⟩) rfl
  simpa [wordMapFind] using this

theorem wordMapFind_bound (wl : List (List Char)) (w : List Char) (j : Nat)
    (h : wordMapFind wl w = some j) : j < wl.length := by
  have := wordMapFindAux_bound wl w 0 j h
  omega

theorem wordMapFind_none_iff (wl : List (List Char)) (w : List Char) :
    wordMapFind wl w = none ↔ w ∉ wl :=
  wordMapFindAux_none_iff wl w 0

-- Accumulation-loop lemmas

theorem wordsToInt_map_getD (wl : List (List Char)) (hnd : wl.Nodup) :
    ∀ (ds : List Nat) (acc : Nat), (∀ d ∈ ds, d < wl.length) →
      wordsToInt (NewEncoder wl) (ds.map fun d => wl.getD d []) acc =
        Except.ok (List.foldl (fun a d => a * 2048 + d) acc ds) := by
  intro ds
  induction ds with
  | nil => intro acc _; rfl
  | cons d ds ih =>
    intro acc hds
    have hd : d < wl.length := hds d (List.mem_cons_self _ _)
    have hgd : wl.getD d [] = wl.get ⟨d, hd⟩ := by
      rw [List.getD_eq_getElem?_getD, List.getElem?_eq_getElem hd]
      rfl
    have hfind : wordMapFind wl (wl.getD d []) = some d := by
      rw [hgd]
      exact wordMapFind_get wl hnd d hd
    simp only [List.map_cons, wordsToInt, NewEncoder, hfind, List.foldl_cons]
    exact ih (acc * 2048 + d) fun x hx => hds x (List.mem_cons_of_mem _ hx)

theorem wordsToInt_error (e : Encoder) :
    ∀ (ws : List (List Char)) (acc : Nat) (err : Err),
      wordsToInt e ws acc = Except.error err → err = Err.MnemonicWordInvalid := by
  intro ws
  induction ws with
  | nil => intro acc err h; simp [wordsToInt] at h
  | cons w ws ih =>
    intro acc err h
    simp only [wordsToInt] at h
    cases hfind : e.wordMap w with
    | none =>
      rw [hfind] at h
      cases h
      rfl
    | some idx =>
      rw [hfind] at h
      exact ih _ err h

theorem wordsToInt_unknown (e : Encoder) :
    ∀ (ws : List (List Char)) (acc : Nat),
      (∃ w ∈ ws, e.wordMap w = none) →
      wordsToInt e ws acc = Except.error Err.MnemonicWordInvalid := by
  intro ws
  induction ws with
  | nil => intro acc h; simp at h
  | cons w ws ih =>
    intro acc h
    simp only [wordsToInt]
    cases hfind : e.wordMap w with
    | none => rfl
    | some idx =>
      apply ih
      obtain ⟨w', hw', hnone⟩ := h
      rcases List.mem_cons.mp hw' with rfl | hmem
      · rw [hfind] at hnone
        exact Option.noConfusion hnone
      · exact ⟨w', hmem, hnone⟩

theorem wordsToInt_lt (wl : List (List Char)) (hwl : wl.length ≤ 2048) :
    ∀ (ws : List (List Char)) (acc V : Nat),
      wordsToInt (NewEncoder wl) ws acc = Except.ok V →
      V < (acc + 1) * 2048 ^ ws.length := by
  intro ws
  induction ws with
  | nil =>
    intro acc V h
    cases h
    simp
  | cons w ws ih =>
    intro acc V h
    simp only [wordsToInt] at h
    cases hfind : (NewEncoder wl).wordMap w with
    | none =>
      rw [hfind] at h
      exact Except.noConfusion h
    | some idx =>
      rw [hfind] at h
      have hidx : idx < 2048 :=
        lt_of_lt_of_le (wordMapFind_bound wl w idx hfind) hwl
      have hV := ih (acc * 2048 + idx) V h
      calc V < (acc * 2048 + idx + 1) * 2048 ^ ws.length := hV
        _ ≤ ((acc + 1) * 2048) * 2048 ^ ws.length := by
            exact Nat.mul_le_mul_right _ (by omega)
        _ = (acc + 1) * 2048 ^ (w :: ws).length := by
            simp only [List.length_cons]
            ring

-- Splitting lemmas for `fields`

theorem okWord_ne_nil {w : List Char} (h : okWord w = true) : w ≠ [] := by
  simp only [okWord, Bool.and_eq_true, Bool.not_eq_true'] at h
  intro hc
  rw [hc] at h
  simp at h

theorem okWord_not_space {w : List Char} (h : okWord w = true) :
    ∀ c ∈ w, ¬ goIsSpace c = true := by
  simp only [okWord, Bool.and_eq_true, List.all_eq_true, Bool.not_eq_true'] at h
  intro c hc
  have := h.2 c hc
  simp [this]

theorem fieldsAux_space (ws : List Char) (hws : ∀ c ∈ ws, goIsSpace c = true) :
    ∀ rest, fieldsAux (ws ++ rest) [] = fieldsAux rest [] := by
  induction ws with
  | nil => intro rest; rfl
  | cons c cs ih =>
    intro rest
    have hc : goIsSpace c = true := hws c (List.mem_cons_self _ _)
    simp only [List.cons_append, fieldsAux, hc, if_true, List.isEmpty_nil]
    exact ih (fun x hx => hws x (List.mem_cons_of_mem _ hx)) rest

theorem fieldsAux_word (w : List Char) (hw : ∀ c ∈ w, ¬ goIsSpace c = true) :
    ∀ rest cur, fieldsAux (w ++ rest) cur = fieldsAux rest (w.reverse ++ cur) := by
  induction w with
  | nil => intro rest cur; rfl
  | cons c cs ih =>
    intro rest cur
    have hc : goIsSpace c = false := by
      have := hw c (List.mem_cons_self _ _)
      simpa using this
    simp only [List.cons_append, fieldsAux, hc, Bool.false_eq_true, if_false,
      List.append_eq]
    rw [ih (fun x hx => hw x (List.mem_cons_of_mem _ hx)) rest (c :: cur)]
    simp

theorem fieldsAux_flush (s : List Char) (hs : ∀ c ∈ s, goIsSpace c = true)
    (cur : List Char) (hcur : cur ≠ []) : fieldsAux s cur = [cur.reverse] := by
  cases s with
  | nil =>
    simp only [fieldsAux]
    rw [if_neg]
    simp [hcur]
  | cons c cs =>
    have hc : goIsSpace c = true := hs c (List.mem_cons_self _ _)
    have hne : cur.isEmpty = false := by simp [hcur]
    simp only [fieldsAux, hc, if_true, hne, Bool.false_eq_true, if_false]
    have : fieldsAux cs [] = [] := by
      have h := fieldsAux_space cs (fun x hx => hs x (List.mem_cons_of_mem _ hx)) []
      simpa using h
    rw [this]

theorem fields_joinWords (ws : List (List Char))
    (hws : ∀ w ∈ ws, okWord w = true) : fields (joinWords ws) = ws := by
  unfold fields
  induction ws with
  | nil => rfl
  | cons w ws ih =>
    have hw := hws w (List.mem_cons_self _ _)
    cases ws with
    | nil =>
      show fieldsAux (joinWords [w]) [] = [w]
      have : joinWords [w] = w ++ [] := by simp [joinWords]
      rw [this, fieldsAux_word w (okWord_not_space hw) [] []]
      simp only [fieldsAux, List.append_nil]
      rw [if_neg]
      · simp
      · simp [okWord_ne_nil hw]
    | cons w2 ws2 =>
      show fieldsAux (joinWords (w :: w2 :: ws2)) [] = w :: w2 :: ws2
      have hjoin : joinWords (w :: w2 :: ws2) = w ++ ' ' :: joinWords (w2 :: ws2) :=
        rfl
      rw [hjoin, fieldsAux_word w (okWord_not_space hw) _ []]
      have hsp : goIsSpace ' ' = true := by decide
      have hne : (w.reverse ++ []).isEmpty = false := by
        simp [okWord_ne_nil hw]
      simp only [fieldsAux, hsp, if_true, hne, Bool.false_eq_true, if_false]
      rw [ih fun x hx => hws x (List.mem_cons_of_mem _ hx)]
      simp

-- Rendering a word sequence with arbitrary white space

theorem renderPieces_nil : renderPieces [] = [] := rfl

theorem renderPieces_cons (w s : List Char) (rest : List (List Char × List Char)) :
    renderPieces ((w, s) :: rest) = w ++ (s ++ renderPieces rest) := by
  simp [renderPieces]

theorem fieldsAux_renderPieces :
    ∀ ps, okPieces ps = true → fieldsAux (renderPieces ps) [] = ps.map Prod.fst := by
  intro ps
  induction ps with
  | nil => intro; rfl
  | cons p rest ih =>
    obtain ⟨w, s⟩ := p
    cases rest with
    | nil =>
      intro hok
      simp only [okPieces, Bool.and_eq_true, List.all_eq_true] at hok
      obtain ⟨hw, hs⟩ := hok
      rw [renderPieces_cons, fieldsAux_word w (okWord_not_space hw) _ [],
        renderPieces_nil, List.append_nil,
        fieldsAux_flush s hs _ (by simp [okWord_ne_nil hw])]
      simp
    | cons p2 rest2 =>
      intro hok
      simp only [okPieces, Bool.and_eq_true, List.all_eq_true,
        Bool.not_eq_true'] at hok
      obtain ⟨⟨⟨hw, hs⟩, hsne⟩, hrest⟩ := hok
      rw [renderPieces_cons, fieldsAux_word w (okWord_not_space hw) _ []]
      cases s with
      | nil => simp at hsne
      | cons c s2 =>
        have hc : goIsSpace c = true := hs c (List.mem_cons_self _ _)
        have hne : (w.reverse ++ []).isEmpty = false := by
          simp [okWord_ne_nil hw]
        simp only [List.cons_append, fieldsAux, hc, if_true, hne,
          Bool.false_eq_true, if_false, List.append_eq]
        rw [fieldsAux_space s2 (fun x hx => hs x (List.mem_cons_of_mem _ hx)) _]
        rw [ih hrest]
        simp

theorem fields_render (lead : List Char)
    (hlead : ∀ c ∈ lead, goIsSpace c = true)
    (ps : List (List Char × List Char)) (hps : okPieces ps = true) :
    fields (lead ++ renderPieces ps) = ps.map Prod.fst := by
  unfold fields
  rw [fieldsAux_space lead hlead]
  exact fieldsAux_renderPieces ps hps

-- Validation characterisation

theorem validateEntropyBitSize_cases (b : Nat) :
    (validateEntropyBitSize b = none ∧
      (b = 128 ∨ b = 160 ∨ b = 192 ∨ b = 224 ∨ b = 256)) ∨
    (validateEntropyBitSize b = some Err.EntropyLengthInvalid ∧
      ¬ (b = 128 ∨ b = 160 ∨ b = 192 ∨ b = 224 ∨ b = 256)) := by
  unfold validateEntropyBitSize
  split
  · rename_i hc
    right
    exact ⟨rfl, by omega⟩
  · rename_i hc
    left
    exact ⟨rfl, by omega⟩

/-- C5: `MarshalEntropy` returns the entropy-length error exactly when the
entropy's bit length (eight times its byte length) is not one of 128, 160,
192, 224, 256; otherwise no such error is produced (and in particular 96-
and 288-bit entropy is rejected with that error and no mnemonic). -/
theorem marshal_entropy_length_error_iff (h : List Nat → Fin 256) (e : Encoder)
    (entropy : List Nat) :
    MarshalEntropy h e entropy = some (Except.error Err.EntropyLengthInvalid) ↔
      ¬ (entropy.length * 8 = 128 ∨ entropy.length * 8 = 160 ∨
         entropy.length * 8 = 192 ∨ entropy.length * 8 = 224 ∨
         entropy.length * 8 = 256) := by
  rcases validateEntropyBitSize_cases (entropy.length * 8) with ⟨hv, hb⟩ | ⟨hv, hb⟩
  · simp only [MarshalEntropy, hv]
    cases hlk : lookupWords e.wordList
        (marshalIndicesRev (bytesToNat (addChecksum h entropy))
          ((entropy.length * 8 + entropy.length * 8 / 32) / 11)) with
    | none => simp [hlk, hb]
    | some ws => simp [hlk, hb]
  · simp [MarshalEntropy, hv, hb]

/-- C6: `UnmarshalEntropy` splits the mnemonic on white space and returns
the mnemonic-length error exactly when the word count is not a multiple of
3 in the range 12 to 24; the check happens for every wordlist alike,
before any word lookup. -/
theorem unmarshal_word_count_error_iff (h : List Nat → Fin 256) (e : Encoder)
    (mnemonic : List Char) :
    UnmarshalEntropy h e mnemonic = Except.error Err.MnemonicLengthInvalid ↔
      ¬ ((fields mnemonic).length % 3 = 0 ∧ 12 ≤ (fields mnemonic).length ∧
         (fields mnemonic).length ≤ 24) := by
  simp only [UnmarshalEntropy, unmarshalWords]
  by_cases hcond : (fields mnemonic).length % 3 ≠ 0 ∨
      (fields mnemonic).length < 12 ∨ (fields mnemonic).length > 24
  · rw [if_pos hcond]
    constructor
    · intro _
      omega
    · intro _
      rfl
  · rw [if_neg hcond]
    have hpos : (fields mnemonic).length % 3 = 0 ∧
        12 ≤ (fields mnemonic).length ∧ (fields mnemonic).length ≤ 24 := by
      omega
    cases hw : wordsToInt e (fields mnemonic) 0 with
    | error err =>
      have herr := wordsToInt_error e _ _ _ hw
      subst herr
      simp only [hw]
      constructor
      · intro hcontra
        simp at hcontra
      · intro hcontra
        exact absurd hpos hcontra
    | ok V =>
      simp only [hw]
      split
      · constructor
        · intro hcontra
          exact Except.noConfusion hcontra
        · intro hcontra
          exact absurd hpos hcontra
      · constructor
        · intro hcontra
          simp at hcontra
        · intro hcontra
          exact absurd hpos hcontra

/-- C3: `NewSeed` fails exactly when `UnmarshalEntropy` fails, with the
very same error; once validation passes it returns the key-derivation
function applied to the mnemonic exactly as supplied (the password), the
salt "mnemonic" followed by the passphrase, 2048 iterations and 64 output
bytes, with no further failure path. -/
theorem newSeed_spec (kdf : List Char → List Char → Nat → Nat → List Nat)
    (h : List Nat → Fin 256) (e : Encoder) (mnemonic password : List Char) :
    (∀ err : Err, NewSeed kdf h e mnemonic password = Except.error err ↔
        UnmarshalEntropy h e mnemonic = Except.error err) ∧
    (∀ bs : List Nat, UnmarshalEntropy h e mnemonic = Except.ok bs →
        NewSeed kdf h e mnemonic password = Except.ok
          (kdf mnemonic (['m', 'n', 'e', 'm', 'o', 'n', 'i', 'c'] ++ password)
            2048 64)) := by
  constructor
  · intro err
    unfold NewSeed
    cases hu : UnmarshalEntropy h e mnemonic with
    | error e2 => simp [hu]
    | ok bs => simp [hu]
  · intro bs hu
    unfold NewSeed
    rw [hu]
    rfl

/-- Witness for C3: a successful seed derivation over a tiny wordlist; the
key-derivation capability records the exact arguments it received. -/
theorem newSeed_spec_witness :
    UnmarshalEntropy hZero (NewEncoder wlA) mnA12 =
      Except.ok (List.replicate 17 0) ∧
    NewSeed kdfLen hZero (NewEncoder wlA) mnA12 ['p'] =
      Except.ok (kdfLen mnA12 (['m', 'n', 'e', 'm', 'o', 'n', 'i', 'c'] ++ ['p'])
        2048 64) :=
  ⟨by rfl,
    (newSeed_spec kdfLen hZero (NewEncoder wlA) mnA12 ['p']).2
      (List.replicate 17 0) (by rfl)⟩

/-- C10: two mnemonics containing the same words in the same order and
differing only in white space (kind, amount, leading or trailing) give
identical `UnmarshalEntropy` results, because splitting collapses all
white-space runs. -/
theorem unmarshal_whitespace_invariant (h : List Nat → Fin 256) (e : Encoder)
    (lead1 lead2 : List Char) (ps1 ps2 : List (List Char × List Char))
    (hl1 : ∀ c ∈ lead1, goIsSpace c = true) (hl2 : ∀ c ∈ lead2, goIsSpace c = true)
    (hp1 : okPieces ps1 = true) (hp2 : okPieces ps2 = true)
    (hsame : ps1.map Prod.fst = ps2.map Prod.fst) :
    UnmarshalEntropy h e (lead1 ++ renderPieces ps1) =
      UnmarshalEntropy h e (lead2 ++ renderPieces ps2) := by
  unfold UnmarshalEntropy
  rw [fields_render lead1 hl1 ps1 hp1, fields_render lead2 hl2 ps2 hp2, hsame]

/-- Witness for C10: the words ab, c rendered with double spaces versus a
tab, an extra leading and trailing space, unmarshal identically. -/
theorem unmarshal_whitespace_invariant_witness :
    okPieces [(['a', 'b'], [' ', ' ']), (['c'], [])] = true ∧
    UnmarshalEntropy hZero (NewEncoder wlA)
        ([] ++ renderPieces [(['a', 'b'], [' ', ' ']), (['c'], [])]) =
      UnmarshalEntropy hZero (NewEncoder wlA)
        ([' '] ++ renderPieces [(['a', 'b'], ['\t']), (['c'], [' '])]) :=
  ⟨by decide,
    unmarshal_whitespace_invariant hZero (NewEncoder wlA) [] [' ']
      [(['a', 'b'], [' ', ' ']), (['c'], [])]
      [(['a', 'b'], ['\t']), (['c'], [' '])]
      (by simp) (by decide) (by decide) (by decide) (by decide)⟩

/-- C7 counterexample: the unknown-word error is the single fixed value
`ErrMnemonicWordInvalid` (returned by `return nil, ErrMnemonicWordInvalid`),
so it cannot identify the offending word: two mnemonics of valid word
count whose first unknown words differ (b versus c) produce identical
errors. -/
theorem unmarshal_unknown_word_counterexample :
    UnmarshalEntropy hZero (NewEncoder wlA) mnUnknownB =
      Except.error Err.MnemonicWordInvalid ∧
    UnmarshalEntropy hZero (NewEncoder wlA) mnUnknownC =
      Except.error Err.MnemonicWordInvalid ∧
    firstUnknownWord wlA (fields mnUnknownB) = some ['b'] ∧
    firstUnknownWord wlA (fields mnUnknownC) = some ['c'] :=
  ⟨by rfl, by rfl, by rfl, by rfl⟩

/-- C7 (amended): when a mnemonic of valid word count contains a word
absent from the wordlist's inverse mapping, `UnmarshalEntropy` fails with
the fixed unknown-word error (which does not carry the offending word),
and no checksum computation is performed: the result is this constant for
every hash capability `h`. -/
theorem unmarshal_unknown_word (h : List Nat → Fin 256)
    (wl : List (List Char)) (mnemonic : List Char)
    (hcount : (fields mnemonic).length % 3 = 0 ∧
      12 ≤ (fields mnemonic).length ∧ (fields mnemonic).length ≤ 24)
    (hunknown : ∃ w ∈ fields mnemonic, wordMapFind wl w = none) :
    UnmarshalEntropy h (NewEncoder wl) mnemonic =
      Except.error Err.MnemonicWordInvalid := by
  simp only [UnmarshalEntropy, unmarshalWords]
  rw [if_neg (by omega)]
  rw [wordsToInt_unknown (NewEncoder wl) (fields mnemonic) 0 hunknown]

/-- Witness for C7: eleven copies of a and the unknown word b fail with
the unknown-word error. -/
theorem unmarshal_unknown_word_witness :
    ((fields mnUnknownB).length % 3 = 0 ∧ 12 ≤ (fields mnUnknownB).length ∧
      (fields mnUnknownB).length ≤ 24) ∧
    UnmarshalEntropy hZero (NewEncoder wlA) mnUnknownB =
      Except.error Err.MnemonicWordInvalid :=
  ⟨by decide,
    unmarshal_unknown_word hZero wlA mnUnknownB (by decide)
      ⟨['b'], by decide, by decide⟩⟩

/-- C8 counterexample: when the random source fails, `NewEntropy` does
not return an empty result alongside the error — it returns the allocated
`bitSize/8`-byte buffer (`return entropy, err` in Go). -/
theorem newEntropy_failure_counterexample :
    NewEntropy failSrc 128 = (List.replicate 16 0, some Err.RandomSourceFailure) ∧
    (NewEntropy failSrc 128).1 ≠ ([] : List Nat) :=
  ⟨by rfl, by decide⟩

/-- C8 (amended): for a valid bit size, `NewEntropy` returns exactly the
`bitSize/8` bytes produced by the secure random source together with the
error the source reported (`RandomSourceFailure` if it failed); on
failure the allocated buffer still accompanies the error. -/
theorem newEntropy_spec (src : Nat → List Nat × Option Err) (bitSize : Nat)
    (hvalid : bitSize = 128 ∨ bitSize = 160 ∨ bitSize = 192 ∨
      bitSize = 224 ∨ bitSize = 256)
    (hsrc : ∀ n, (src n).1.length = n) :
    NewEntropy src bitSize = src (bitSize / 8) ∧
    (NewEntropy src bitSize).1.length = bitSize / 8 := by
  have hv : validateEntropyBitSize bitSize = none := by
    unfold validateEntropyBitSize
    rw [if_neg]
    omega
  have heq : NewEntropy src bitSize = src (bitSize / 8) := by
    unfold NewEntropy
    rw [hv]
  exact ⟨heq, by rw [heq]; exact hsrc _⟩

/-- Witness for C8: the always-failing random source at 128 bits. -/
theorem newEntropy_spec_witness :
    NewEntropy failSrc 128 = failSrc 16 ∧
    (NewEntropy failSrc 128).1.length = 16 := by
  have h := newEntropy_spec failSrc 128 (Or.inl rfl)
    (fun n => by simp [failSrc])
  simpa using h

/-- C9: `NewEncoder` performs no validation of the wordlist (it stores any
list as given); every index the marshalling loop computes is an 11-bit
value below 2048, so with at least 2048 wordlist entries no lookup can go
out of bounds (no panic), while a shorter wordlist can make the lookup
panic. -/
theorem newEncoder_no_validation_and_index_bounds :
    (∀ wl : List (List Char), (NewEncoder wl).wordList = wl) ∧
    (∀ x k : Nat, ∀ d ∈ marshalIndicesRev x k, d < 2048) ∧
    (∀ (h : List Nat → Fin 256) (wl : List (List Char)) (entropy : List Nat),
        2048 ≤ wl.length → MarshalEntropy h (NewEncoder wl) entropy ≠ none) ∧
    (∃ (h : List Nat → Fin 256) (wl : List (List Char)) (entropy : List Nat),
        wl.length < 2048 ∧ MarshalEntropy h (NewEncoder wl) entropy = none) := by
  refine ⟨fun wl => rfl, fun x k => marshalIndicesRev_mem k x, ?_, ?_⟩
  · intro h wl entropy hwl
    simp only [MarshalEntropy]
    cases hv : validateEntropyBitSize (entropy.length * 8) with
    | some err => simp [hv]
    | none =>
      simp only [hv]
      rw [show (NewEncoder wl).wordList = wl from rfl]
      rw [lookupWords_eq wl _
        (fun d hd => lt_of_lt_of_le (marshalIndicesRev_mem _ _ d hd) hwl)]
      simp
  · exact ⟨hZero, [], List.replicate 16 0, by decide, by rfl⟩

/-- Witness for C9: with a full 2048-word list, marshalling cannot panic. -/
theorem newEncoder_no_validation_witness :
    2048 ≤ wlBig.length ∧
    MarshalEntropy hZero (NewEncoder wlBig) eZero16 ≠ none := by
  have hlen : wlBig.length = 2048 := by simp [wlBig]
  exact ⟨by omega,
    newEncoder_no_validation_and_index_bounds.2.2.1 hZero wlBig eZero16 (by omega)⟩

-- Marshalling success path

theorem marshalIndicesRev_length : ∀ (k x : Nat), (marshalIndicesRev x k).length = k := by
  intro k
  induction k with
  | zero => intro x; rfl
  | succ k ih =>
    intro x
    rw [marshalIndicesRev_succ]
    simp [ih (x / 2048)]

theorem compareByteSlices_self (a : List Nat) : compareByteSlices a a = true := by
  unfold compareByteSlices
  rw [if_neg (by simp)]
  rw [List.all_eq_true]
  intro p hp
  induction a with
  | nil => simp at hp
  | cons x xs ih =>
    rw [List.zip_cons_cons] at hp
    rcases List.mem_cons.mp hp with rfl | hmem
    · simp
    · exact ih hmem

theorem getD_mem (wl : List (List Char)) (d : Nat) (hd : d < wl.length) :
    wl.getD d [] ∈ wl := by
  rw [List.getD_eq_getElem?_getD, List.getElem?_eq_getElem hd]
  exact List.getElem_mem hd

theorem marshal_success (h : List Nat → Fin 256) (wl : List (List Char))
    (hwl : 2048 ≤ wl.length) (entropy : List Nat)
    (hlen : entropy.length = 16 ∨ entropy.length = 20 ∨ entropy.length = 24 ∨
      entropy.length = 28 ∨ entropy.length = 32) :
    MarshalEntropy h (NewEncoder wl) entropy =
      (some (Except.ok (joinWords
        (((marshalIndicesRev (bytesToNat (addChecksum h entropy))
            ((entropy.length * 8 + entropy.length * 8 / 32) / 11)).map
          fun d => wl.getD d []).reverse))) : Option (Except Err (List Char))) := by
  have hv : validateEntropyBitSize (entropy.length * 8) = none := by
    unfold validateEntropyBitSize
    rw [if_neg]
    omega
  simp only [MarshalEntropy, hv]
  rw [show (NewEncoder wl).wordList = wl from rfl]
  rw [lookupWords_eq wl _
    (fun d hd => lt_of_lt_of_le (marshalIndicesRev_mem _ _ d hd) hwl)]

/-- C4: for every entropy of valid bit length, the mnemonic produced by
`MarshalEntropy` has word count exactly `(entropyBits + entropyBits/32)/11`
(the exact value of `entropyBits/11 + entropyBits/(32*11)`, as witnessed
by `wordCount * 352 = entropyBits * 33`), always one of 12, 15, 18, 21,
24. -/
theorem marshal_word_count (h : List Nat → Fin 256) (wl : List (List Char))
    (hwl : 2048 ≤ wl.length) (hok : ∀ w ∈ wl, okWord w = true)
    (entropy : List Nat)
    (hbits : entropy.length * 8 = 128 ∨ entropy.length * 8 = 160 ∨
      entropy.length * 8 = 192 ∨ entropy.length * 8 = 224 ∨
      entropy.length * 8 = 256) :
    ∃ m : List Char,
      MarshalEntropy h (NewEncoder wl) entropy = some (Except.ok m) ∧
      (fields m).length = (entropy.length * 8 + entropy.length * 8 / 32) / 11 ∧
      (fields m).length * (32 * 11) = entropy.length * 8 * 33 ∧
      ((fields m).length = 12 ∨ (fields m).length = 15 ∨
        (fields m).length = 18 ∨ (fields m).length = 21 ∨
        (fields m).length = 24) := by
  have hlen : entropy.length = 16 ∨ entropy.length = 20 ∨ entropy.length = 24 ∨
      entropy.length = 28 ∨ entropy.length = 32 := by omega
  have hwords : ∀ w ∈ ((marshalIndicesRev (bytesToNat (addChecksum h entropy))
      ((entropy.length * 8 + entropy.length * 8 / 32) / 11)).map
        fun d => wl.getD d []).reverse, okWord w = true := by
    intro w hw
    rw [List.mem_reverse] at hw
    obtain ⟨d, hd, rfl⟩ := List.mem_map.mp hw
    have hdlt : d < wl.length :=
      lt_of_lt_of_le (marshalIndicesRev_mem _ _ d hd) hwl
    exact hok _ (getD_mem wl d hdlt)
  have hfields := fields_joinWords _ hwords
  refine ⟨_, marshal_success h wl hwl entropy hlen, ?_, ?_, ?_⟩ <;>
    rw [hfields] <;>
    simp only [List.length_reverse, List.length_map, marshalIndicesRev_length] <;>
    omega

theorem wlBig_length : wlBig.length = 2048 := by simp [wlBig]

theorem wlBig_ok : ∀ w ∈ wlBig, okWord w = true := by
  intro w hw
  simp only [wlBig, List.mem_map, List.mem_range] at hw
  obtain ⟨i, hi, rfl⟩ := hw
  simp only [okWord, Bool.and_eq_true, List.all_eq_true]
  constructor
  · simp
  · intro c hc
    rw [List.eq_of_mem_replicate hc]
    decide

theorem wlBig_nodup : wlBig.Nodup := by
  refine List.Nodup.map ?_ (List.nodup_range 2048)
  intro i j hij
  have hl : i + 1 = j + 1 := by
    have := congrArg List.length hij
    simpa using this
  omega

/-- Witness for C4: all-zero 128-bit entropy over a full wordlist yields a
12-word mnemonic. -/
theorem marshal_word_count_witness :
    2048 ≤ wlBig.length ∧
    ∃ m, MarshalEntropy hZero (NewEncoder wlBig) eZero16 = some (Except.ok m) ∧
      (fields m).length = (eZero16.length * 8 + eZero16.length * 8 / 32) / 11 ∧
      (fields m).length * (32 * 11) = eZero16.length * 8 * 33 ∧
      ((fields m).length = 12 ∨ (fields m).length = 15 ∨
        (fields m).length = 18 ∨ (fields m).length = 21 ∨
        (fields m).length = 24) :=
  ⟨by rw [wlBig_length], marshal_word_count hZero wlBig (by rw [wlBig_length])
    wlBig_ok eZero16 (Or.inl (by decide))⟩

/-- C1: for every entropy of valid bit length and every wordlist of 2048
distinct words, stripping the checksum bits (integer division by
`2 ^ (bitLength/32)`) from the value unmarshalled out of the marshalled
mnemonic gives back exactly the original entropy bytes. -/
theorem marshal_unmarshal_roundtrip (h : List Nat → Fin 256)
    (wl : List (List Char)) (hwlLen : wl.length = 2048) (hnd : wl.Nodup)
    (hok : ∀ w ∈ wl, okWord w = true) (entropy : List Nat)
    (hbytes : ∀ b ∈ entropy, b < 256)
    (hlen : entropy.length = 16 ∨ entropy.length = 20 ∨ entropy.length = 24 ∨
      entropy.length = 28 ∨ entropy.length = 32) :
    ∃ (m : List Char) (bs : List Nat),
      MarshalEntropy h (NewEncoder wl) entropy = some (Except.ok m) ∧
      UnmarshalEntropy h (NewEncoder wl) m = Except.ok bs ∧
      padByteSlice (natToBytes (bytesToNat bs / 2 ^ (entropy.length * 8 / 32)))
        entropy.length = entropy := by
  have hwl : 2048 ≤ wl.length := by omega
  set fb := (h entropy).val with hfb
  set E := bytesToNat entropy with hE
  set cb := entropy.length / 4 with hcb
  set V := checksumShift fb cb E with hV
  set L := (entropy.length * 8 + entropy.length * 8 / 32) / 11 with hLdef
  have hadd : addChecksum h entropy = natToBytes V := rfl
  have hcb8 : entropy.length * 8 / 32 = cb := by omega
  have h11L : L * 11 = entropy.length * 8 + cb := by omega
  have hcbs : L * 11 % 32 = cb := by omega
  have hL3 : L % 3 = 0 := by omega
  have hL12 : 12 ≤ L := by omega
  have hL24 : L ≤ 24 := by omega
  have hfbs2 : (L * 11 - cb) / 8 + 1 = entropy.length + 1 := by omega
  have hck : entropy.length + 1 - (entropy.length + 1) % 4 = entropy.length := by
    omega
  have hElt : E < 2 ^ (entropy.length * 8) := by
    have h256 : E < 256 ^ entropy.length := bytesToNat_lt entropy hbytes
    calc E < 256 ^ entropy.length := h256
      _ = 2 ^ (8 * entropy.length) := by
          rw [pow_mul]
          norm_num
      _ = 2 ^ (entropy.length * 8) := by
          rw [Nat.mul_comm]
  have hVlt : V < 2048 ^ L := by
    have h1 : V < 2 ^ (entropy.length * 8) * 2 ^ cb :=
      checksumShift_lt fb cb E _ hElt
    calc V < 2 ^ (entropy.length * 8) * 2 ^ cb := h1
      _ = 2 ^ (L * 11) := by
          rw [← pow_add]
          congr 1
          omega
      _ = (2 ^ 11) ^ L := by
          rw [← pow_mul, Nat.mul_comm]
      _ = 2048 ^ L := by norm_num
  have hm := marshal_success h wl hwl entropy hlen
  have hVA : bytesToNat (addChecksum h entropy) = V := by
    rw [hadd, bytesToNat_natToBytes]
  rw [hVA] at hm
  set m := joinWords (((marshalIndicesRev V L).map fun d => wl.getD d []).reverse)
    with hm_def
  have hwords : ∀ w ∈ ((marshalIndicesRev V L).map fun d => wl.getD d []).reverse,
      okWord w = true := by
    intro w hw
    rw [List.mem_reverse] at hw
    obtain ⟨d, hd, rfl⟩ := List.mem_map.mp hw
    have hdlt : d < wl.length :=
      lt_of_lt_of_le (marshalIndicesRev_mem _ _ d hd) hwl
    exact hok _ (getD_mem wl d hdlt)
  have hfields : fields m =
      ((marshalIndicesRev V L).map fun d => wl.getD d []).reverse :=
    fields_joinWords _ hwords
  have hfieldslen : (fields m).length = L := by
    rw [hfields]
    simp [marshalIndicesRev_length]
  have hmaprev : ((marshalIndicesRev V L).map fun d => wl.getD d []).reverse =
      ((marshalIndicesRev V L).reverse).map fun d => wl.getD d [] := by
    rw [List.map_reverse]
  have hdigs : ∀ d ∈ (marshalIndicesRev V L).reverse, d < wl.length := by
    intro d hd
    rw [List.mem_reverse] at hd
    exact lt_of_lt_of_le (marshalIndicesRev_mem _ _ d hd) hwl
  have hfold := wordsToInt_map_getD wl hnd ((marshalIndicesRev V L).reverse) 0 hdigs
  have hfoldval :
      List.foldl (fun a d => a * 2048 + d) 0 (marshalIndicesRev V L).reverse = V := by
    rw [foldl_marshalIndicesRev L V 0, Nat.mod_eq_of_lt hVlt]
    omega
  have hwti : wordsToInt (NewEncoder wl) (fields m) 0 = Except.ok V := by
    rw [hfields, hmaprev, hfold, hfoldval]
  have hE_raw : V / 2 ^ cb = E := checksumShift_div fb cb E
  have hrawbytes : padByteSlice (natToBytes E) entropy.length = entropy :=
    padByteSlice_natToBytes entropy hbytes
  have hunm : UnmarshalEntropy h (NewEncoder wl) m =
      Except.ok (padByteSlice (natToBytes V) (entropy.length + 1)) := by
    simp only [UnmarshalEntropy, unmarshalWords]
    rw [hfieldslen]
    rw [if_neg (by omega)]
    simp only [hwti]
    rw [hcbs, hfbs2, hck, hE_raw, hrawbytes, hadd]
    rw [compareByteSlices_self]
    simp
  refine ⟨m, padByteSlice (natToBytes V) (entropy.length + 1), hm, hunm, ?_⟩
  have hbs2 : bytesToNat (padByteSlice (natToBytes V) (entropy.length + 1)) = V := by
    rw [bytesToNat_padByteSlice, bytesToNat_natToBytes]
  rw [hbs2, hcb8, hE_raw, hrawbytes]

/-- Witness for C1: the round trip on sixteen zero bytes over a concrete
wordlist of 2048 distinct words. -/
theorem marshal_unmarshal_roundtrip_witness :
    wlBig.length = 2048 ∧
    ∃ (m : List Char) (bs : List Nat),
      MarshalEntropy hZero (NewEncoder wlBig) eZero16 = some (Except.ok m) ∧
      UnmarshalEntropy hZero (NewEncoder wlBig) m = Except.ok bs ∧
      padByteSlice (natToBytes (bytesToNat bs / 2 ^ (eZero16.length * 8 / 32)))
        eZero16.length = eZero16 :=
  ⟨wlBig_length,
    marshal_unmarshal_roundtrip hZero wlBig wlBig_length wlBig_nodup wlBig_ok
      eZero16 (fun b hb => by rw [List.eq_of_mem_replicate hb]; norm_num)
      (Or.inl (by decide))⟩

theorem wordcount_bits_le (wc : Nat) (h3 : wc % 3 = 0) (h12 : 12 ≤ wc)
    (h24 : wc ≤ 24) :
    11 * wc ≤ 8 * ((wc * 11 - wc * 11 % 32) / 8 + 1) := by
  interval_cases wc <;> omega

/-- C2: every successful `UnmarshalEntropy` returns the full
checksummed-entropy byte sequence — the accumulated word-index value `V`
with the checksum bits still attached at the low end — left padded with
zero bytes to exactly `fullByteSize = (wordCount*11 - wordCount*11 % 32)/8 + 1`
bytes; the big-endian value of the result is `V` itself, not the raw
entropy `V / 2^checksumBits`. -/
theorem unmarshal_returns_checksummed_padded (h : List Nat → Fin 256)
    (wl : List (List Char)) (hwl : wl.length ≤ 2048)
    (mnemonic : List Char) (bs : List Nat)
    (hok : UnmarshalEntropy h (NewEncoder wl) mnemonic = Except.ok bs) :
    ∃ V : Nat,
      wordsToInt (NewEncoder wl) (fields mnemonic) 0 = Except.ok V ∧
      bs = padByteSlice (natToBytes V)
        (((fields mnemonic).length * 11 - (fields mnemonic).length * 11 % 32) / 8
          + 1) ∧
      bs.length =
        ((fields mnemonic).length * 11 - (fields mnemonic).length * 11 % 32) / 8
          + 1 ∧
      bytesToNat bs = V := by
  simp only [UnmarshalEntropy, unmarshalWords] at hok
  by_cases hcond : (fields mnemonic).length % 3 ≠ 0 ∨
      (fields mnemonic).length < 12 ∨ (fields mnemonic).length > 24
  · rw [if_pos hcond] at hok
    exact Except.noConfusion hok
  · rw [if_neg hcond] at hok
    cases hw : wordsToInt (NewEncoder wl) (fields mnemonic) 0 with
    | error err =>
      simp only [hw] at hok
      exact Except.noConfusion hok
    | ok V =>
      simp only [hw] at hok
      split at hok
      · have hbs : bs = padByteSlice (natToBytes V)
            (((fields mnemonic).length * 11 -
              (fields mnemonic).length * 11 % 32) / 8 + 1) :=
          (Except.ok.inj hok).symm
        have hV : V < 2048 ^ (fields mnemonic).length := by
          have := wordsToInt_lt wl hwl (fields mnemonic) 0 V hw
          simpa using this
        have hVpow : V < 256 ^ (((fields mnemonic).length * 11 -
            (fields mnemonic).length * 11 % 32) / 8 + 1) := by
          calc V < 2048 ^ (fields mnemonic).length := hV
            _ = (2 ^ 11) ^ (fields mnemonic).length := by norm_num
            _ = 2 ^ (11 * (fields mnemonic).length) := by rw [← pow_mul]
            _ ≤ 2 ^ (8 * (((fields mnemonic).length * 11 -
                  (fields mnemonic).length * 11 % 32) / 8 + 1)) := by
                apply Nat.pow_le_pow_right (by norm_num)
                exact wordcount_bits_le (fields mnemonic).length (by omega)
                  (by omega) (by omega)
            _ = (2 ^ 8) ^ (((fields mnemonic).length * 11 -
                  (fields mnemonic).length * 11 % 32) / 8 + 1) := by
                rw [← pow_mul]
            _ = 256 ^ (((fields mnemonic).length * 11 -
                  (fields mnemonic).length * 11 % 32) / 8 + 1) := by norm_num
        have hblen : (natToBytes V).length ≤
            ((fields mnemonic).length * 11 -
              (fields mnemonic).length * 11 % 32) / 8 + 1 :=
          natToBytes_length_le V _ hVpow
        refine ⟨V, rfl, hbs, ?_, ?_⟩
        · rw [hbs, padByteSlice_length]
          omega
        · rw [hbs, bytesToNat_padByteSlice, bytesToNat_natToBytes]
      · exact Except.noConfusion hok

/-- Witness for C2: the all-a twelve-word mnemonic over the one-word list
decodes to seventeen zero bytes carrying the (zero) checksummed value. -/
theorem unmarshal_returns_checksummed_padded_witness :
    wlA.length ≤ 2048 ∧
    UnmarshalEntropy hZero (NewEncoder wlA) mnA12 =
      Except.ok (List.replicate 17 0) ∧
    ∃ V : Nat,
      wordsToInt (NewEncoder wlA) (fields mnA12) 0 = Except.ok V ∧
      List.replicate 17 0 = padByteSlice (natToBytes V)
        (((fields mnA12).length * 11 - (fields mnA12).length * 11 % 32) / 8 + 1) ∧
      (List.replicate 17 (0 : Nat)).length =
        ((fields mnA12).length * 11 - (fields mnA12).length * 11 % 32) / 8 + 1 ∧
      bytesToNat (List.replicate 17 0) = V :=
  ⟨by decide, by rfl,
    unmarshal_returns_checksummed_padded hZero wlA (by decide) mnA12
      (List.replicate 17 0) (by rfl)⟩
